import Mathlib

/-!
Verification of the text layout and measurement engine of
`scripts/generate_og.py` (OG social-preview card generator).

The script's core pieces are embedded shallowly:

* `measure` — the defensive text-measurement shim (`measure(draw, text, font)`,
  lines 26–34): the drawing context's bounding-box query and the font's
  `getsize` query are modelled as `Option`-valued capabilities (`none` means
  the call is unavailable / raises), and the final heuristic is total.
* `wrap_text` — greedy word wrap (lines 36–51); the measurement oracle is an
  arbitrary function `String → Nat` giving the pixel width of a candidate.
* `fit_heading` — the shrink-to-fit heading loop inlined in `main`
  (lines 129–137): `for s in range(64, 28, -2)` over an oracle
  `widthAt : Nat → Nat` giving the measured width of the heading at size `s`.
* `metaLine` — the author/sha metadata line construction (lines 152–159).
* `renderAssets` — the optional-asset section of `main` (lines 161–204),
  with file existence and decodability of each asset as booleans and the
  drawing side effects reified as a list of `RenderStep`s.
-/

/-- Python `range(start, stop, -step)` for a positive `step`, descending:
`start, start-step, ...`, stopping before any value `≤ stop`.  Written with
structural fuel (`start + 1` bounds the iteration count) so that it computes
by `rfl`/`decide`. -/
def pyRangeDownAux : Nat → Nat → Nat → Nat → List Nat
  | 0, _, _, _ => []
  | fuel + 1, start, stop, step =>
    if start ≤ stop then []
    else start :: pyRangeDownAux fuel (start - step) stop step

/-- Python `range(start, stop, -step)` (empty when `step = 0`, matching no
well-formed call; the script only uses `step = 2`). -/
def pyRangeDown (start stop step : Nat) : List Nat :=
  if step = 0 then [] else pyRangeDownAux (start + 1) start stop step

/-- The body of the shrink loop in `main` (lines 132–136): walk the size list,
re-measuring at each size; `break` at the first size whose measured width is
within budget; if the list is exhausted the font handle keeps the last size
assigned (`last`). -/
def shrinkLoop (widthAt : Nat → Nat) (maxw : Nat) : List Nat → Nat → Nat
  | [], last => last
  | s :: rest, _ =>
    if widthAt s ≤ maxw then s else shrinkLoop widthAt maxw rest s

/-- The shrink-to-fit heading sizer of `main` (lines 129–137): the font starts
at `maxStart` (64); the loop `for s in range(maxStart, minSize, -step)` runs
only when the initial measurement overflows `maxw`.  Returns the font size
held by `font_repo` afterwards. -/
def fit_heading (widthAt : Nat → Nat) (maxStart minSize step maxw : Nat) : Nat :=
  if widthAt maxStart ≤ maxw then maxStart
  else shrinkLoop widthAt maxw (pyRangeDown maxStart minSize step) maxStart

theorem shrinkLoop_eq_getLastD (widthAt : Nat → Nat) (maxw : Nat) :
    ∀ (l : List Nat) (last : Nat), (∀ s ∈ l, ¬ widthAt s ≤ maxw) →
      shrinkLoop widthAt maxw l last = l.getLastD last
  | [], _, _ => rfl
  | s :: rest, last, h => by
    simp only [shrinkLoop]
    rw [if_neg (h s (List.mem_cons_self s rest)),
      shrinkLoop_eq_getLastD widthAt maxw rest s
        (fun x hx => h x (List.mem_cons_of_mem _ hx)),
      List.getLastD_cons]

theorem shrinkLoop_mem_or_last (widthAt : Nat → Nat) (maxw : Nat) :
    ∀ (l : List Nat) (last : Nat),
      shrinkLoop widthAt maxw l last ∈ l ∨ shrinkLoop widthAt maxw l last = last
  | [], _ => Or.inr rfl
  | s :: rest, last => by
    simp only [shrinkLoop]
    by_cases hs : widthAt s ≤ maxw
    · rw [if_pos hs]; exact Or.inl (List.mem_cons_self s rest)
    · rw [if_neg hs]
      rcases shrinkLoop_mem_or_last widthAt maxw rest s with h | h
      · exact Or.inl (List.mem_cons_of_mem _ h)
      · refine Or.inl ?_
        rw [h]
        exact List.mem_cons_self s rest

theorem shrinkLoop_fits (widthAt : Nat → Nat) (maxw : Nat) :
    ∀ (l : List Nat) (last : Nat), (∃ s ∈ l, widthAt s ≤ maxw) →
      widthAt (shrinkLoop widthAt maxw l last) ≤ maxw
  | [], _, h => absurd h (by simp)
  | s :: rest, last, h => by
    simp only [shrinkLoop]
    by_cases hs : widthAt s ≤ maxw
    · rwa [if_pos hs]
    · rw [if_neg hs]
      rcases h with ⟨x, hx, hfit⟩
      rcases List.mem_cons.mp hx with rfl | hx'
      · exact absurd hfit hs
      · exact shrinkLoop_fits widthAt maxw rest s ⟨x, hx', hfit⟩

/-- C1 (amended): when no size tried by the loop fits, the loop leaves the
font at size 30, the last value of `range(64, 28, -2)` — the Python range
excludes its stop value 28, so 28 is never tried and never returned. -/
theorem fit_heading_exhaust_returns_30 (widthAt : Nat → Nat) (maxw : Nat)
    (h : ∀ s ∈ pyRangeDown 64 28 2, ¬ widthAt s ≤ maxw) :
    fit_heading widthAt 64 28 2 maxw = 30 := by
  have h64 : ¬ widthAt 64 ≤ maxw := h 64 (by decide)
  rw [fit_heading, if_neg h64, shrinkLoop_eq_getLastD widthAt maxw _ _ h]
  decide

/-- Witness for C1 (amended) at the constant oracle 1000 with budget 400. -/
theorem fit_heading_exhaust_returns_30_witness :
    fit_heading (fun _ => 1000) 64 28 2 400 = 30 :=
  fit_heading_exhaust_returns_30 (fun _ => 1000) 400 (by decide)

/-- Counterexample to C1 as stated: with the constant width oracle 1000 and
budget 400 no tried size fits, yet the loop returns size 30, not `min_size`
(28). -/
theorem fit_heading_exhaust_not_28 :
    ((pyRangeDown 64 28 2).all fun s => decide (¬ (fun _ : Nat => 1000) s ≤ 400)) = true ∧
    fit_heading (fun _ => 1000) 64 28 2 400 ≠ 28 := by
  refine ⟨by decide, by decide⟩

/-- C2 (amended): the returned size always lies in `[min_size, max_start_size]`
= [28, 64]; and whenever some size actually tried by the loop (the members of
`range(64, 28, -2)`, i.e. 64, 62, …, 30 — not 28, which the range excludes)
measures within budget, the returned size measures within budget. -/
theorem fit_heading_range_and_fit (widthAt : Nat → Nat) (maxw : Nat) :
    (28 ≤ fit_heading widthAt 64 28 2 maxw ∧ fit_heading widthAt 64 28 2 maxw ≤ 64) ∧
    ((∃ s ∈ pyRangeDown 64 28 2, widthAt s ≤ maxw) →
      widthAt (fit_heading widthAt 64 28 2 maxw) ≤ maxw) := by
  rw [fit_heading]
  by_cases h64 : widthAt 64 ≤ maxw
  · rw [if_pos h64]
    exact ⟨⟨by norm_num, le_refl 64⟩, fun _ => h64⟩
  · rw [if_neg h64]
    constructor
    · have hrange : ∀ s ∈ pyRangeDown 64 28 2, 28 ≤ s ∧ s ≤ 64 := by decide
      rcases shrinkLoop_mem_or_last widthAt maxw (pyRangeDown 64 28 2) 64 with h | h
      · exact hrange _ h
      · rw [h]; exact ⟨by norm_num, le_refl 64⟩
    · exact fun hex => shrinkLoop_fits widthAt maxw _ 64 hex

/-- Witness for C2 (amended) at the oracle `s ↦ s * 10` with budget 400:
size 40 is tried and fits, and the returned size indeed fits. -/
theorem fit_heading_range_and_fit_witness :
    (28 ≤ fit_heading (fun s => s * 10) 64 28 2 400 ∧
      fit_heading (fun s => s * 10) 64 28 2 400 ≤ 64) ∧
    (fun s => s * 10) (fit_heading (fun s => s * 10) 64 28 2 400) ≤ 400 :=
  ⟨(fit_heading_range_and_fit (fun s => s * 10) 400).1,
    (fit_heading_range_and_fit (fun s => s * 10) 400).2 ⟨40, by decide, by decide⟩⟩

/-- Counterexample to C2 as stated: with an oracle under which only sizes ≤ 29
fit the 400 budget, size 28 lies in [28, 64] and fits, but the loop never
tries 28, returns 30, and the returned size overflows the budget. -/
theorem fit_heading_misses_28_cex :
    (28 ≤ 28 ∧ 28 ≤ 64 ∧ (fun s : Nat => if s ≤ 29 then 0 else 1000) 28 ≤ 400) ∧
    ¬ (fun s : Nat => if s ≤ 29 then 0 else 1000)
        (fit_heading (fun s => if s ≤ 29 then 0 else 1000) 64 28 2 400) ≤ 400 := by
  refine ⟨by decide, by decide⟩

/-- Python `str.split()` with no argument, on a character list: split on runs
of whitespace, discarding empty pieces ( leading, trailing and repeated
whitespace produce no empty words).  `acc` holds the characters of the word
in progress, in reverse. -/
def splitWsAux : List Char → List Char → List (List Char)
  | [], acc => if acc = [] then [] else [acc.reverse]
  | c :: cs, acc =>
    if c.isWhitespace then
      if acc = [] then splitWsAux cs []
      else acc.reverse :: splitWsAux cs []
    else splitWsAux cs (c :: acc)

/-- `text.split()` of the script (line 37): the whitespace-separated words of
`text`, each a non-empty whitespace-free string. -/
def pySplit (text : String) : List String :=
  (splitWsAux text.data []).map String.mk

/-- Joining a word group with single spaces — the string a line buffer holds
after the words of the group have been accepted one by one. -/
def joinWords : List String → String
  | [] => ""
  | [w] => w
  | w :: ws => w ++ " " ++ joinWords ws

/-- The loop body of `wrap_text` (lines 40–50): for each word, form
`test = cur + (" " if cur else "") + w`; accept it onto the current line when
it measures within budget, otherwise flush the (non-empty) current line and
start a new one at `w`; after the last word, flush a non-empty `cur`. -/
def wrapLoop (meas : String → Nat) (maxw : Nat) : List String → String → List String
  | [], cur => if cur = "" then [] else [cur]
  | w :: ws, cur =>
    let test := cur ++ (if cur = "" then "" else " ") ++ w
    if meas test ≤ maxw then
      wrapLoop meas maxw ws test
    else if cur = "" then
      wrapLoop meas maxw ws w
    else
      cur :: wrapLoop meas maxw ws w

/-- `wrap_text(text, font, max_width, draw)` (lines 36–51); the font and the
drawing context are absorbed into the measurement oracle `meas`. -/
def wrap_text (text : String) (meas : String → Nat) (maxw : Nat) : List String :=
  wrapLoop meas maxw (pySplit text) ""

example : pySplit "  the quick  brown " = ["the", "quick", "brown"] := by decide
example : pySplit "" = [] := by decide
example : pySplit "   " = [] := by decide
example : wrap_text "a bb ccc" (fun s => s.length) 4 = ["a bb", "ccc"] := by decide
example : wrap_text "aaaaa b" (fun s => s.length) 3 = ["aaaaa", "b"] := by decide
example : wrap_text "b aaaaa c" (fun s => s.length) 3 = ["b", "aaaaa", "c"] := by decide

theorem str_mk_eq_empty_iff (l : List Char) : String.mk l = "" ↔ l = [] := by
  constructor
  · intro h; exact congrArg String.data h
  · intro h; rw [h]

theorem joinWords_cons_cons (w x : String) (ws : List String) :
    joinWords (w :: x :: ws) = w ++ " " ++ joinWords (x :: ws) := rfl

theorem append_space_append_ne_empty (a b : String) : a ++ " " ++ b ≠ "" := by
  intro h
  have hd := congrArg String.data h
  simp [String.data_append] at hd

theorem joinWords_ne_empty (l : List String) (hne : l ≠ [])
    (hw : ∀ w ∈ l, w ≠ "") : joinWords l ≠ "" := by
  match l with
  | [] => exact absurd rfl hne
  | [w] => exact hw w (List.mem_singleton.mpr rfl)
  | w :: x :: ws =>
    rw [joinWords_cons_cons]
    exact append_space_append_ne_empty w (joinWords (x :: ws))

theorem joinWords_append_single (l : List String) (w : String) (h : l ≠ []) :
    joinWords (l ++ [w]) = joinWords l ++ " " ++ w := by
  match l with
  | [] => exact absurd rfl h
  | [a] => rfl
  | a :: b :: t =>
    have ih := joinWords_append_single (b :: t) w (by simp)
    simp only [List.cons_append, joinWords_cons_cons]
    rw [show (b :: t) ++ [w] = b :: (t ++ [w]) from rfl] at ih
    rw [ih]
    simp [String.append_assoc]

theorem splitWsAux_ne_nil (cs : List Char) :
    ∀ acc, ∀ w ∈ splitWsAux cs acc, w ≠ [] := by
  induction cs with
  | nil =>
    intro acc w hw
    by_cases hacc : acc = []
    · simp [splitWsAux, hacc] at hw
    · simp only [splitWsAux, if_neg hacc, List.mem_singleton] at hw
      subst hw
      simpa using hacc
  | cons c cs ih =>
    intro acc w hw
    simp only [splitWsAux] at hw
    by_cases hws : c.isWhitespace
    · rw [if_pos hws] at hw
      by_cases hacc : acc = []
      · rw [if_pos hacc] at hw
        exact ih [] w hw
      · rw [if_neg hacc] at hw
        rcases List.mem_cons.mp hw with rfl | hw'
        · simpa using hacc
        · exact ih [] w hw'
    · rw [if_neg hws] at hw
      exact ih (c :: acc) w hw

theorem pySplit_ne_empty (text : String) : ∀ w ∈ pySplit text, w ≠ "" := by
  intro w hw
  rcases List.mem_map.mp hw with ⟨l, hl, rfl⟩
  rw [Ne, str_mk_eq_empty_iff]
  exact splitWsAux_ne_nil text.data [] l hl

/-- Main invariant of the wrap loop: the produced lines are exactly the
space-joins of a partition (`groups`) of the pending words (current line's
words `curW`, then the remaining input words `ws`); every group is non-empty,
and every group of two or more words measures within budget (a multi-word
line is only ever formed by accepting a measured candidate). -/
theorem wrapLoop_groups (meas : String → Nat) (maxw : Nat) :
    ∀ (ws curW : List String) (cur : String),
      cur = joinWords curW →
      (∀ x ∈ curW, x ≠ "") →
      (∀ x ∈ ws, x ≠ "") →
      (curW ≠ [] → curW.length = 1 ∨ meas cur ≤ maxw) →
      ∃ groups : List (List String),
        wrapLoop meas maxw ws cur = groups.map joinWords ∧
        groups.flatten = curW ++ ws ∧
        (∀ g ∈ groups, g ≠ []) ∧
        (∀ g ∈ groups, g.length = 1 ∨ meas (joinWords g) ≤ maxw) := by
  intro ws
  induction ws with
  | nil =>
    intro curW cur hjoin hcurW _ hwidth
    by_cases hcur : cur = ""
    · have hW : curW = [] := by
        by_contra hne
        exact (joinWords_ne_empty curW hne hcurW) (hjoin.symm.trans hcur)
      refine ⟨[], ?_, ?_, by simp, by simp⟩
      · rw [hcur]; rfl
      · rw [hW]; rfl
    · have hWne : curW ≠ [] := fun h => hcur (by rw [hjoin, h]; rfl)
      refine ⟨[curW], ?_, by simp, ?_, ?_⟩
      · simp only [wrapLoop, if_neg hcur, List.map_cons, List.map_nil]
        rw [hjoin]
      · intro g hg; rcases List.mem_singleton.mp hg with rfl; exact hWne
      · intro g hg; rcases List.mem_singleton.mp hg with rfl
        rcases hwidth hWne with h1 | h2
        · exact Or.inl h1
        · exact Or.inr (hjoin ▸ h2)
  | cons w ws' ih =>
    intro curW cur hjoin hcurW hws hwidth
    have hw : w ≠ "" := hws w (List.mem_cons_self _ _)
    have hws' : ∀ x ∈ ws', x ≠ "" := fun x hx => hws x (List.mem_cons_of_mem _ hx)
    by_cases hcur : cur = ""
    · have hW : curW = [] := by
        by_contra hne
        exact (joinWords_ne_empty curW hne hcurW) (hjoin.symm.trans hcur)
      have htest : cur ++ (if cur = "" then "" else " ") ++ w = w := by
        rw [hcur, if_pos rfl, String.empty_append, String.empty_append]
      obtain ⟨groups, hmap, hflat, hne, hwid⟩ :=
        ih [w] w rfl (by simp [hw]) hws' (fun _ => Or.inl rfl)
      refine ⟨groups, ?_, ?_, hne, hwid⟩
      · simp only [wrapLoop]
        rw [htest]
        by_cases hm : meas w ≤ maxw
        · rw [if_pos hm]; exact hmap
        · rw [if_neg hm, if_pos hcur]; exact hmap
      · rw [hflat, hW]; rfl
    · have hWne : curW ≠ [] := fun h => hcur (by rw [hjoin, h]; rfl)
      have htest : cur ++ (if cur = "" then "" else " ") ++ w = joinWords (curW ++ [w]) := by
        rw [if_neg hcur, joinWords_append_single curW w hWne, hjoin]
      by_cases hm : meas (joinWords (curW ++ [w])) ≤ maxw
      · obtain ⟨groups, hmap, hflat, hne, hwid⟩ :=
          ih (curW ++ [w]) (joinWords (curW ++ [w])) rfl
            (by
              intro x hx
              rcases List.mem_append.mp hx with h | h
              · exact hcurW x h
              · rcases List.mem_singleton.mp h with rfl; exact hw)
            hws' (fun _ => Or.inr hm)
        refine ⟨groups, ?_, ?_, hne, hwid⟩
        · simp only [wrapLoop]
          rw [htest, if_pos hm]
          exact hmap
        · rw [hflat, List.append_assoc]; rfl
      · obtain ⟨groups, hmap, hflat, hne, hwid⟩ :=
          ih [w] w rfl (by simp [hw]) hws' (fun _ => Or.inl rfl)
        refine ⟨curW :: groups, ?_, ?_, ?_, ?_⟩
        · simp only [wrapLoop]
          rw [htest, if_neg hm, if_neg hcur, hmap, List.map_cons, hjoin]
        · simp only [List.flatten_cons, hflat]
          rfl
        · intro g hg
          rcases List.mem_cons.mp hg with rfl | hg'
          · exact hWne
          · exact hne g hg'
        · intro g hg
          rcases List.mem_cons.mp hg with rfl | hg'
          · rcases hwidth hWne with h1 | h2
            · exact Or.inl h1
            · exact Or.inr (hjoin ▸ h2)
          · exact hwid g hg'

/-- C3: the lines of `wrap_text` are the single-space joins of a partition of
the whitespace-split word sequence of the input, in reading order — no word
is dropped, duplicated or reordered, and no line joins words with anything
but single spaces. -/
theorem wrap_text_word_preservation (text : String) (meas : String → Nat) (maxw : Nat) :
    ∃ groups : List (List String),
      groups.flatten = pySplit text ∧
      (∀ g ∈ groups, g ≠ []) ∧
      wrap_text text meas maxw = groups.map joinWords := by
  obtain ⟨groups, hmap, hflat, hne, _⟩ :=
    wrapLoop_groups meas maxw (pySplit text) [] "" rfl (by simp)
      (pySplit_ne_empty text) (fun h => absurd rfl h)
  exact ⟨groups, by simpa using hflat, hne, hmap⟩

/-- C4: every produced line measures within `maxw`, except possibly a line
that is a single input word whose own measured width exceeds `maxw`. -/
theorem wrap_text_width_bound (text : String) (meas : String → Nat) (maxw : Nat) :
    ∀ l ∈ wrap_text text meas maxw,
      meas l ≤ maxw ∨ (l ∈ pySplit text ∧ maxw < meas l) := by
  obtain ⟨groups, hmap, hflat, _, hwid⟩ :=
    wrapLoop_groups meas maxw (pySplit text) [] "" rfl (by simp)
      (pySplit_ne_empty text) (fun h => absurd rfl h)
  intro l hl
  rw [wrap_text, hmap] at hl
  rcases List.mem_map.mp hl with ⟨g, hg, rfl⟩
  rcases hwid g hg with h1 | h2
  · rcases List.length_eq_one.mp h1 with ⟨w, rfl⟩
    by_cases hm : meas (joinWords [w]) ≤ maxw
    · exact Or.inl hm
    · refine Or.inr ⟨?_, not_le.mp hm⟩
      have hw : (w : String) ∈ ([w] : List String) := List.mem_singleton.mpr rfl
      have : w ∈ groups.flatten := List.mem_flatten.mpr ⟨[w], hg, hw⟩
      rw [hflat] at this
      simpa using this
  · exact Or.inl h2

/-- Witness for C4: on `"a bb ccc"` with the length oracle and budget 4, the
produced line `"a bb"` measures within budget. -/
theorem wrap_text_width_bound_witness :
    ("a bb" ∈ wrap_text "a bb ccc" (fun s => s.length) 4) ∧
    ((fun s : String => s.length) "a bb" ≤ 4 ∨
      ("a bb" ∈ pySplit "a bb ccc" ∧ 4 < (fun s : String => s.length) "a bb")) :=
  ⟨by decide, wrap_text_width_bound "a bb ccc" (fun s => s.length) 4 "a bb" (by decide)⟩

/-- C5: `wrap_text` never emits an empty line. -/
theorem wrap_text_no_empty_lines (text : String) (meas : String → Nat) (maxw : Nat) :
    ∀ l ∈ wrap_text text meas maxw, l ≠ "" := by
  obtain ⟨groups, hmap, hflat, hne, _⟩ :=
    wrapLoop_groups meas maxw (pySplit text) [] "" rfl (by simp)
      (pySplit_ne_empty text) (fun h => absurd rfl h)
  intro l hl
  rw [wrap_text, hmap] at hl
  rcases List.mem_map.mp hl with ⟨g, hg, rfl⟩
  refine joinWords_ne_empty g (hne g hg) ?_
  intro x hx
  have : x ∈ groups.flatten := List.mem_flatten.mpr ⟨g, hg, hx⟩
  rw [hflat] at this
  exact pySplit_ne_empty text x (by simpa using this)

/-- Witness for C5: on `"a bb ccc"` with the length oracle and budget 4, the
produced line `"a bb"` is non-empty. -/
theorem wrap_text_no_empty_lines_witness :
    ("a bb" ∈ wrap_text "a bb ccc" (fun s => s.length) 4) ∧ ("a bb" : String) ≠ "" :=
  ⟨by decide, wrap_text_no_empty_lines "a bb ccc" (fun s => s.length) 4 "a bb" (by decide)⟩

/-- C6 (amended): `wrap_text` returns no lines exactly when the input splits
into no words — when the input is empty **or consists only of whitespace**
(`text.split()` discards whitespace-only input, so e.g. `" "` also yields an
empty wrap result, not just `""`). -/
theorem wrap_text_empty_iff (text : String) (meas : String → Nat) (maxw : Nat) :
    wrap_text text meas maxw = [] ↔ pySplit text = [] := by
  constructor
  · intro h
    obtain ⟨groups, hmap, hflat, hne, _⟩ :=
      wrapLoop_groups meas maxw (pySplit text) [] "" rfl (by simp)
        (pySplit_ne_empty text) (fun hc => absurd rfl hc)
    rw [wrap_text, hmap] at h
    rcases List.map_eq_nil_iff.mp h with rfl
    simpa using hflat.symm
  · intro h
    rw [wrap_text, h]
    rfl

/-- Counterexample to C6 as stated: the whitespace-only input `" "` is a
non-empty string on which `wrap_text` nevertheless returns no lines. -/
theorem wrap_text_whitespace_empty_cex :
    wrap_text " " (fun s => s.length) 500 = [] ∧ (" " : String) ≠ "" := by
  refine ⟨by decide, by decide⟩

/-- C7: an input consisting of exactly one word whose measured width exceeds
the budget is returned as a single overflowing line holding exactly that
word; the word is not re-split and the function is total (never raises). -/
theorem wrap_text_oversized_single_word (text : String) (meas : String → Nat)
    (maxw : Nat) (w : String) (hsplit : pySplit text = [w]) (hover : maxw < meas w) :
    wrap_text text meas maxw = [w] := by
  have hwne : w ≠ "" :=
    pySplit_ne_empty text w (by rw [hsplit]; exact List.mem_singleton.mpr rfl)
  have hnm : ¬ meas w ≤ maxw := not_le.mpr hover
  rw [wrap_text, hsplit]
  simp only [wrapLoop]
  simp [String.empty_append, hnm, hwne]

/-- Witness for C3 at a concrete input: the wrap of `"a bb ccc"` under the
length oracle with budget 4 is a space-join of a partition of its words. -/
theorem wrap_text_word_preservation_witness :
    ∃ groups : List (List String),
      groups.flatten = pySplit "a bb ccc" ∧
      (∀ g ∈ groups, g ≠ []) ∧
      wrap_text "a bb ccc" (fun s => s.length) 4 = groups.map joinWords :=
  wrap_text_word_preservation "a bb ccc" (fun s => s.length) 4

/-- Witness for C6 (amended) at the empty input: Scenario B, the wrap of `""`
is the empty sequence. -/
theorem wrap_text_empty_iff_witness :
    wrap_text "" (fun s => s.length) 500 = [] ↔ pySplit "" = [] :=
  wrap_text_empty_iff "" (fun s => s.length) 500

/-- Witness for C7: Scenario C — the single 34-character word measures
6 × 34 = 204 px against a 50 px budget and is returned as one overflowing
line. -/
theorem wrap_text_oversized_single_word_witness :
    pySplit "Supercalifragilisticexpialidocious" = ["Supercalifragilisticexpialidocious"] ∧
    50 < (fun s : String => 6 * s.length) "Supercalifragilisticexpialidocious" ∧
    wrap_text "Supercalifragilisticexpialidocious" (fun s => 6 * s.length) 50 =
      ["Supercalifragilisticexpialidocious"] :=
  ⟨by decide, by decide,
    wrap_text_oversized_single_word "Supercalifragilisticexpialidocious"
      (fun s => 6 * s.length) 50 "Supercalifragilisticexpialidocious"
      (by decide) (by decide)⟩

/-- A font handle's `getsize` query (`font.getsize(text)` on the text being
measured); `none` models a Pillow version where the call is unavailable
(raises). -/
structure Font where
  getsize : Option (Nat × Nat)

/-- The drawing context's measurement-relevant capability surface as probed by
`measure`: `textbbox` is the tight bounding-box query
(`draw.textbbox((0,0), text, font=font)` returning `(left, top, right,
bottom)`), and `textsize` is the legacy `draw.textsize` call older Pillow
versions expose on the same object — this revision of `measure` never
consults it.  `none` models "unavailable / raises". -/
structure Ctx where
  textbbox : Option (Int × Int × Int × Int)
  textsize : Option (Nat × Nat)

namespace OG

/-- `measure(draw, text, font)` (lines 26–34): try the bounding-box query;
if it raises, try the font's `getsize`; if that raises too, return the
heuristic `(len(text)*6, 20)`. -/
def measure (draw : Ctx) (text : String) (font : Font) : Int × Int :=
  match draw.textbbox with
  | some (l, t, r, b) => (r - l, b - t)
  | none =>
    match font.getsize with
    | some (w, h) => ((w : Int), (h : Int))
    | none => (((text.length * 6 : Nat) : Int), 20)

/-- C8 (amended): `measure` attempts, in order, (1) the context's tight
bounding-box query, (2) the font's rendered-size query, (3) the deterministic
heuristic `(6 × character count, 20)`.  The context's legacy size-measurement
call is **never consulted** (this revision has no such step), the function is
total (never raises), and the result is non-negative — in the bounding-box
branch provided the box is well-formed (`left ≤ right`, `top ≤ bottom`), as
Pillow guarantees, and unconditionally in the other two branches. -/
theorem measure_fallback_chain (draw : Ctx) (text : String) (font : Font) :
    (∀ l t r b, draw.textbbox = some (l, t, r, b) →
      measure draw text font = (r - l, b - t) ∧
        (l ≤ r → t ≤ b →
          0 ≤ (measure draw text font).1 ∧ 0 ≤ (measure draw text font).2)) ∧
    (draw.textbbox = none → ∀ w h, font.getsize = some (w, h) →
      measure draw text font = ((w : Int), (h : Int)) ∧
        0 ≤ (measure draw text font).1 ∧ 0 ≤ (measure draw text font).2) ∧
    (draw.textbbox = none → font.getsize = none →
      measure draw text font = (((text.length * 6 : Nat) : Int), 20) ∧
        0 ≤ (measure draw text font).1 ∧ 0 ≤ (measure draw text font).2) ∧
    (∀ ts : Option (Nat × Nat),
      measure ⟨draw.textbbox, ts⟩ text font = measure draw text font) := by
  refine ⟨?_, ?_, ?_, ?_⟩
  · intro l t r b hbb
    have hm : measure draw text font = (r - l, b - t) := by
      simp only [measure, hbb]
    refine ⟨hm, fun hlr htb => ?_⟩
    rw [hm]
    exact ⟨Int.sub_nonneg.mpr hlr, Int.sub_nonneg.mpr htb⟩
  · intro hbb w h hgs
    have hm : measure draw text font = ((w : Int), (h : Int)) := by
      simp only [measure, hbb, hgs]
    refine ⟨hm, ?_⟩
    rw [hm]
    exact ⟨Int.ofNat_nonneg w, Int.ofNat_nonneg h⟩
  · intro hbb hgs
    have hm : measure draw text font = (((text.length * 6 : Nat) : Int), 20) := by
      simp only [measure, hbb, hgs]
    refine ⟨hm, ?_⟩
    rw [hm]
    exact ⟨Int.ofNat_nonneg _, by norm_num⟩
  · intro ts
    simp only [measure]

/-- Witness for C8 (amended): with both real queries unavailable, the
heuristic yields `(6 × 2, 20)` on `"ab"`, a non-negative pair. -/
theorem measure_fallback_chain_witness :
    measure ⟨none, some (999, 999)⟩ "ab" ⟨none⟩ = (((12 : Nat) : Int), 20) ∧
    0 ≤ (measure ⟨none, some (999, 999)⟩ "ab" ⟨none⟩).1 ∧
    0 ≤ (measure ⟨none, some (999, 999)⟩ "ab" ⟨none⟩).2 :=
  (measure_fallback_chain ⟨none, some (999, 999)⟩ "ab" ⟨none⟩).2.2.1 rfl rfl

/-- Counterexample to C8 as stated: a context whose legacy size-measurement
call is available and would answer `(999, 999)`, while the bounding-box query
and the font's `getsize` are unavailable.  The claimed step (3) would return
`(999, 999)`; the code never consults the legacy call and returns the
heuristic `(12, 20)` directly. -/
theorem measure_no_legacy_step_cex :
    measure ⟨none, some (999, 999)⟩ "ab" ⟨none⟩ = ((12 : Int), (20 : Int)) ∧
    measure ⟨none, some (999, 999)⟩ "ab" ⟨none⟩ ≠ ((999 : Int), (999 : Int)) := by
  refine ⟨rfl, by decide⟩

end OG

/-- The drawing side effects the optional-asset section of `main` can issue.
`notice` stands for a printed diagnostic about an asset; the script contains
no such print (its `except` handlers are `pass`), so the constructor lets the
theorems state that no notice is ever emitted. -/
inductive RenderStep where
  | pasteAvatar
  | pasteGithubMark
  | placeholderCircle
  | notice (msg : String)
deriving DecidableEq

/-- Environment of the optional assets: whether each file exists on disk
(`os.path.exists`) and whether `Image.open(...).convert("RGBA")` plus the
subsequent paste succeed (no exception). -/
structure AssetEnv where
  logoExists : Bool
  logoDecodes : Bool
  ghExists : Bool
  ghDecodes : Bool

/-- Lines 161–176: `if os.path.exists(logo_path):` then
`try: ... img.paste(avatar, ...) except Exception: pass`. -/
def avatarSteps (env : AssetEnv) : List RenderStep :=
  if env.logoExists then
    if env.logoDecodes then [RenderStep.pasteAvatar] else []
  else []

/-- Lines 189–204: `if os.path.exists(gh_path):` then
`try: ... img.paste(gh, ...) except Exception: pass`, `else:` draw a
placeholder ellipse where the GitHub icon would be. -/
def githubMarkSteps (env : AssetEnv) : List RenderStep :=
  if env.ghExists then
    if env.ghDecodes then [RenderStep.pasteGithubMark] else []
  else [RenderStep.placeholderCircle]

/-- The asset-related drawing effects of one render, in program order. -/
def renderAssets (env : AssetEnv) : List RenderStep :=
  avatarSteps env ++ githubMarkSteps env

/-- C9 (amended): an optional asset that exists but fails to open/decode is
omitted and the render continues **silently** — no diagnostic notice is ever
emitted (the `except` handlers are bare `pass`); moreover, when the
GitHub-mark file does not exist, the render does substitute different
content: a placeholder circle is drawn exactly in that case.  No asset
failure aborts the render (`renderAssets` is total). -/
theorem renderAssets_silent_fallback (env : AssetEnv) :
    (env.logoExists = true → env.logoDecodes = false →
      RenderStep.pasteAvatar ∉ renderAssets env) ∧
    (env.ghExists = true → env.ghDecodes = false →
      RenderStep.pasteGithubMark ∉ renderAssets env) ∧
    (∀ msg, RenderStep.notice msg ∉ renderAssets env) ∧
    (RenderStep.placeholderCircle ∈ renderAssets env ↔ env.ghExists = false) := by
  rcases env with ⟨le, ld, ge, gd⟩
  cases le <;> cases ld <;> cases ge <;> cases gd <;>
    simp [renderAssets, avatarSteps, githubMarkSteps]

/-- Witness for C9 (amended): avatar file present but undecodable, GitHub
mark absent — the avatar paste is omitted and the placeholder appears. -/
theorem renderAssets_silent_fallback_witness :
    RenderStep.pasteAvatar ∉ renderAssets ⟨true, false, false, true⟩ ∧
    RenderStep.placeholderCircle ∈ renderAssets ⟨true, false, false, true⟩ :=
  ⟨(renderAssets_silent_fallback ⟨true, false, false, true⟩).1 rfl rfl,
    (renderAssets_silent_fallback ⟨true, false, false, true⟩).2.2.2.mpr rfl⟩

/-- Counterexample to C9 as stated: with the avatar present but undecodable
and the GitHub mark missing, the asset effects are exactly one placeholder
circle — no diagnostic notice accompanies the decode failure, and the
missing mark is substituted by different content rather than omitted. -/
theorem renderAssets_placeholder_cex :
    renderAssets ⟨true, false, false, true⟩ = [RenderStep.placeholderCircle] := rfl

/-- `args.sha[:7]` — the first seven characters of the commit hash. -/
def shaShort (sha : String) : String := ⟨sha.data.take 7⟩

/-- Lines 152–159 of `main`: build the bottom-left metadata line from
`--author` and `--sha`.  Python truthiness `if args.author:` / `if args.sha:`
is the non-emptiness test. -/
def metaLine (author sha : String) : String :=
  let m := if author = "" then "" else "by " ++ author
  if sha = "" then m
  else m ++ (if m = "" then "" else " • ") ++ shaShort sha

/-- `if meta: draw.text(...)` (line 158): the metadata line is drawn exactly
when it is non-empty. -/
def metaDrawn (author sha : String) : Bool := metaLine author sha != ""

theorem by_author_ne_empty (a : String) : "by " ++ a ≠ "" := by
  intro h
  have hd := congrArg String.data h
  rw [String.data_append] at hd
  exact absurd (List.append_eq_nil.mp hd).1 (by decide)

/-- C10: the metadata line carries at most the first 7 characters of the
commit hash; with both an author and a sha the truncated hash follows the
separator `" • "` after `"by <author>"`; with only a sha the line is the
truncated hash alone; and with both empty no metadata line is drawn. -/
theorem metaLine_sha_truncated (author sha : String) :
    (shaShort sha).length ≤ 7 ∧
    (author ≠ "" → sha ≠ "" →
      metaLine author sha = "by " ++ author ++ " • " ++ shaShort sha) ∧
    (author = "" → sha ≠ "" → metaLine author sha = shaShort sha) ∧
    (author = "" → sha = "" → metaDrawn author sha = false) := by
  refine ⟨?_, ?_, ?_, ?_⟩
  · show (sha.data.take 7).length ≤ 7
    rw [List.length_take]
    exact min_le_left _ _
  · intro ha hs
    rw [metaLine]
    simp only [if_neg ha, if_neg hs, if_neg (by_author_ne_empty author)]
  · intro ha hs
    subst ha
    simp [metaLine, hs, String.empty_append]
  · intro ha hs
    subst ha; subst hs
    rfl

/-- Witness for C10 at author `"alice"`, sha `"0123456789abcdef"`: the line is
`"by alice • 0123456"`. -/
theorem metaLine_sha_truncated_witness :
    (shaShort "0123456789abcdef").length ≤ 7 ∧
    metaLine "alice" "0123456789abcdef" =
      "by " ++ "alice" ++ " • " ++ shaShort "0123456789abcdef" :=
  ⟨(metaLine_sha_truncated "alice" "0123456789abcdef").1,
    (metaLine_sha_truncated "alice" "0123456789abcdef").2.1 (by decide) (by decide)⟩
